import Mathlib

/-!
# Verification of the VRC camera-control bridge core

Shallow embedding of the two core subsystems of the repository:

* the OSC wire-protocol codec of `server.js` (`pad4`, `writePaddedString`,
  `buildOscMessage`, `parseOscMessage`) over byte lists (`List Nat`,
  each entry `< 256` on the wire);
* the MJPEG frame demuxer of `spout-bridge.js` (the `stdout` `data`
  handler shared by all capture variants), the `/mjpeg` viewer tick
  (`sendFrame`), the probe decision of `tryDirectSpoutCapture`, and the
  camera-state mutation handlers of `server.js` (`/api/move`, the OSC
  receiver `message` handler).

Buffers are `List Nat`; JS strings that travel over the wire are modelled
at the byte level (the codec moves them with `Buffer.from` / `toString`,
which is the identity on the byte content for the inputs the claims
quantify over).
-/

namespace VRC

/-- `function pad4(n) { return (4 - (n % 4)) % 4; }` (server.js line 77). -/
def pad4 (n : Nat) : Nat := (4 - n % 4) % 4

/-- `Math.ceil(offset / 4) * 4` — the round-up-to-multiple-of-4 used by
`parseOscMessage` after every NUL terminator. -/
def roundUp4 (n : Nat) : Nat := (n + 3) / 4 * 4

/-- `writePaddedString(str)` (server.js lines 186–191): the string bytes,
a NUL terminator, then `pad4` zero bytes. -/
def writePaddedString (s : List Nat) : List Nat :=
  let s0 := s ++ [0]
  s0 ++ List.replicate (pad4 s0.length) 0

/-- The four big-endian bytes of a 32-bit word, as written by
`writeFloatBE` / `writeInt32BE` (server.js `floatToBuffer`, `intToBuffer`). -/
def be32 (w : Nat) : List Nat :=
  [w / 2 ^ 24 % 256, w / 2 ^ 16 % 256, w / 2 ^ 8 % 256, w % 256]

/-- Recombine four big-endian bytes starting at `o`, as `readFloatBE` /
`readInt32BE` read them (callers guard `o + 4 ≤ b.length`). -/
def read32 (b : List Nat) (o : Nat) : Nat :=
  b.getD o 0 * 2 ^ 24 + b.getD (o + 1) 0 * 2 ^ 16 + b.getD (o + 2) 0 * 2 ^ 8
    + b.getD (o + 3) 0

/-- The unsigned 32-bit two's-complement pattern of a signed value, as
`writeInt32BE` stores it (in range `-2^31 ≤ v < 2^31`). -/
def toUInt32 (v : Int) : Nat := (v % (2 ^ 32 : Int)).toNat

/-- The signed value of a 32-bit pattern, as `readInt32BE` returns it. -/
def fromInt32 (n : Nat) : Int :=
  if n < 2 ^ 31 then (n : Int) else (n : Int) - 2 ^ 32

/-- Scan of `Buffer.indexOf(v, s)`: walk the suffix `l = b.drop s`
carrying the absolute index. -/
def findByteAux (v : Nat) : List Nat → Nat → Option Nat
  | [], _ => none
  | x :: xs, i => if x = v then some i else findByteAux v xs (i + 1)

/-- `buffer.indexOf(v, s)`: first absolute index `≥ s` holding byte `v`. -/
def findByte (v : Nat) (b : List Nat) (s : Nat) : Option Nat :=
  findByteAux v (b.drop s) s

/-- `buffer.toString(.., i, j)` / `buffer.slice(i, j)`: the bytes of the
half-open range `[i, j)`. -/
def listSlice (b : List Nat) (i j : Nat) : List Nat := (b.take j).drop i

/-- One decoded OSC argument.  Floats are carried as their 32-bit
big-endian bit pattern (the spec compares floats bit-for-bit, and the
codec moves exactly these four bytes). `bool` arguments exist only on
the encode side (`T` / `F` type codes); `parseOscMessage` never produces
one. -/
inductive OscArg where
  | float (bits : Nat)
  | int (v : Int)
  | str (bytes : List Nat)
  | blob (bytes : List Nat)
  | bool (b : Bool)
deriving DecidableEq, Repr

/-- The record returned by `parseOscMessage`: address bytes, the type
characters after the leading tag character was dropped, and the decoded
arguments. -/
structure OscMessage where
  address : List Nat
  types : List Nat
  args : List OscArg
deriving DecidableEq, Repr

/-- Outcome of the argument loop: the collected argument list, or a
`RangeError` thrown by a fixed-size read at an invalid (negative)
offset, which aborts the whole decode. -/
inductive ArgsOut where
  | thrown
  | ok (args : List OscArg)
deriving DecidableEq, Repr

/-- `args.push(a)` followed by the rest of the loop: if the rest throws,
the pushed value is lost with the whole result. -/
def argsCons (a : OscArg) : ArgsOut → ArgsOut
  | .thrown => .thrown
  | .ok args => .ok (a :: args)

/-- `Math.ceil(x / 4) * 4` over JS integers (the offset can be driven
negative by a negative blob size). -/
def ceil4 (x : Int) : Int := (x + 3).fdiv 4 * 4

/-- Node `Buffer.prototype.slice` (= `subarray`): a negative index
counts from the end of the buffer, both ends clamp to `[0, length]`,
and an inverted range is empty. -/
def jsSlice (b : List Nat) (start e : Int) : List Nat :=
  let len : Int := b.length
  let s2 := if start < 0 then max (len + start) 0 else min start len
  let e2 := if e < 0 then max (len + e) 0 else min e len
  if e2 ≤ s2 then [] else listSlice b s2.toNat e2.toNat

/-- The argument loop of `parseOscMessage` (server.js lines 102–135).
The `for` loop tests `i < types.length && offset < buffer.length` before
every iteration; `f`/`i` break when 4 bytes would overrun, `s` breaks
when no NUL follows, `b` breaks when the size prefix or payload would
overrun, and every other character (including `T`/`F`) is `continue`:
no bytes consumed, nothing pushed.  The blob size is read with
`readInt32BE` — *signed* — so a size `≥ 2^31` is negative: it slips
past the `offset + blobSize > buffer.length` guard, `slice` clamps the
inverted or from-the-end range, and `offset += blobSize` goes negative;
a later `readFloatBE`/`readInt32BE` at a negative offset then throws
`ERR_OUT_OF_RANGE` (`.thrown`), while `indexOf` counts a negative
offset from the end of the buffer (clamped to 0) and `toString` clamps
a negative start to 0. -/
def parseArgs : List Nat → List Nat → Int → ArgsOut
  | [], _, _ => .ok []
  | t :: ts, b, offset =>
    if offset < (b.length : Int) then
      if t = 102 then
        if (b.length : Int) < offset + 4 then .ok []
        else if offset < 0 then .thrown
        else argsCons (.float (read32 b offset.toNat))
          (parseArgs ts b (offset + 4))
      else if t = 105 then
        if (b.length : Int) < offset + 4 then .ok []
        else if offset < 0 then .thrown
        else argsCons (.int (fromInt32 (read32 b offset.toNat)))
          (parseArgs ts b (offset + 4))
      else if t = 115 then
        let start := if offset < 0 then max ((b.length : Int) + offset) 0
          else offset
        match findByte 0 b start.toNat with
        | none => .ok []
        | some e => argsCons (.str (listSlice b (max offset 0).toNat e))
            (parseArgs ts b ((roundUp4 (e + 1) : Nat) : Int))
      else if t = 98 then
        if (b.length : Int) < offset + 4 then .ok []
        else if offset < 0 then .thrown
        else
          let size : Int := fromInt32 (read32 b offset.toNat)
          if (b.length : Int) < offset + 4 + size then .ok []
          else argsCons (.blob (jsSlice b (offset + 4) (offset + 4 + size)))
            (parseArgs ts b (ceil4 (offset + 4 + size)))
      else parseArgs ts b offset
    else .ok []

/-- Outcome of `parseOscMessage` as its caller observes it: the
`return null` (`MalformedMessage`), a thrown `RangeError` escaping the
function into the receive handler's `try`/`catch`, or a decoded
message. -/
inductive ParseOut where
  | null
  | thrown
  | ok (m : OscMessage)
deriving DecidableEq, Repr

/-- `parseOscMessage(buffer)` (server.js lines 80–138). -/
def parseOscMessage (b : List Nat) : ParseOut :=
  match findByte 0 b 0 with
  | none => .null
  | some addressEnd =>
    let address := listSlice b 0 addressEnd
    let offset := roundUp4 (addressEnd + 1)
    if b.length ≤ offset then .ok ⟨address, [], []⟩
    else
      match findByte 0 b offset with
      | none => .null
      | some typeTagEnd =>
        let typeTag := listSlice b offset typeTagEnd
        let offset2 := roundUp4 (typeTagEnd + 1)
        match parseArgs (typeTag.drop 1) b (offset2 : Int) with
        | .thrown => .thrown
        | .ok args => .ok ⟨address, typeTag.drop 1, args⟩

/-- The buffer pushed for one `(type, arg)` pair in `buildOscMessage`
(server.js lines 212–227): `f` → `floatToBuffer`, `i` → `intToBuffer`,
`s` → `writePaddedString`, `T`/`F` → nothing, anything else →
string fallback.  A mismatched argument goes through JS `Number()` /
`String()` coercion in the source; that coercion is represented by a
fixed placeholder here and is never exercised by the well-typed
theorems below. -/
def argBuf (t : Nat) (a : OscArg) : List Nat :=
  if t = 102 then
    match a with
    | .float bits => be32 bits
    | _ => be32 0
  else if t = 105 then
    match a with
    | .int v => be32 (toUInt32 v)
    | _ => be32 0
  else if t = 84 ∨ t = 70 then []
  else
    match a with
    | .str s => writePaddedString s
    | _ => writePaddedString []

/-- The `argBufs` accumulation of `buildOscMessage`: one `argBuf` per
type character, reading `args` positionally (`args[i]`). -/
def encodeArgs : List Nat → List OscArg → List Nat
  | [], _ => []
  | _ :: _, [] => []
  | t :: ts, a :: as => argBuf t a ++ encodeArgs ts as

/-- `buildOscMessage(address, types, args)` (server.js lines 206–230):
padded address block, padded `','+types` tag block, then the argument
buffers. -/
def buildOscMessage (address : List Nat) (types : List Nat)
    (args : List OscArg) : List Nat :=
  writePaddedString address ++ writePaddedString (44 :: types) ++
    encodeArgs types args

/-! ## Codec lemmas -/

theorem roundUp4_eq_add_pad4 (n : Nat) : roundUp4 n = n + pad4 n := by
  unfold roundUp4 pad4; omega

theorem four_dvd_roundUp4 (n : Nat) : 4 ∣ roundUp4 n := by
  unfold roundUp4; omega

theorem writePaddedString_length (s : List Nat) :
    (writePaddedString s).length = roundUp4 (s.length + 1) := by
  simp [writePaddedString, roundUp4_eq_add_pad4]
  omega

theorem four_dvd_writePaddedString_length (s : List Nat) :
    4 ∣ (writePaddedString s).length := by
  rw [writePaddedString_length]; exact four_dvd_roundUp4 _

theorem roundUp4_add_left (a n : Nat) (h : 4 ∣ a) :
    roundUp4 (a + n) = a + roundUp4 n := by
  unfold roundUp4; omega

theorem writePaddedString_eq_cons (s : List Nat) :
    writePaddedString s = s ++ 0 :: List.replicate (pad4 (s.length + 1)) 0 := by
  simp [writePaddedString]

theorem findByteAux_append_zero (s : List Nat) (h : 0 ∉ s) (r : List Nat) (i : Nat) :
    findByteAux 0 (s ++ 0 :: r) i = some (i + s.length) := by
  induction s generalizing i with
  | nil => simp [findByteAux]
  | cons x xs ih =>
    simp only [List.mem_cons, not_or] at h
    have hx : ¬x = 0 := fun hc => h.1 hc.symm
    show (if x = 0 then some i else findByteAux 0 (xs ++ 0 :: r) (i + 1)) = _
    rw [if_neg hx, ih h.2]
    simp [Nat.add_comm, Nat.add_assoc, Nat.add_left_comm]

theorem findByte_append (v : Nat) (pre r : List Nat) :
    findByte v (pre ++ r) pre.length = findByteAux v r pre.length := by
  unfold findByte
  rw [List.drop_left]

theorem findByte_block (pre s : List Nat) (h : 0 ∉ s) (r : List Nat) :
    findByte 0 (pre ++ (s ++ 0 :: r)) pre.length = some (pre.length + s.length) := by
  rw [findByte_append, findByteAux_append_zero s h]

theorem listSlice_block (pre t : List Nat) (n : Nat) :
    listSlice (pre ++ t) pre.length (pre.length + n) = t.take n := by
  unfold listSlice
  rw [List.take_append, List.drop_left]

theorem listSlice_zero (s : List Nat) (r : List Nat) :
    listSlice (s ++ r) 0 s.length = s := by
  unfold listSlice
  rw [List.drop_zero, List.take_left]

theorem be32_length (w : Nat) : (be32 w).length = 4 := by simp [be32]

theorem read32_append (pre l : List Nat) :
    read32 (pre ++ l) pre.length = read32 l 0 := by
  unfold read32
  rw [List.getD_append_right _ _ _ _ (by omega),
      List.getD_append_right _ _ _ _ (by omega),
      List.getD_append_right _ _ _ _ (by omega),
      List.getD_append_right _ _ _ _ (by omega)]
  simp

theorem read32_be32 (w : Nat) (hw : w < 2 ^ 32) (r : List Nat) :
    read32 (be32 w ++ r) 0 = w := by
  simp [read32, be32]
  omega

theorem fromInt32_toUInt32 (v : Int) (h1 : -2 ^ 31 ≤ v) (h2 : v < 2 ^ 31) :
    fromInt32 (toUInt32 v) = v := by
  unfold fromInt32 toUInt32
  omega

theorem toUInt32_lt (v : Int) : toUInt32 v < 2 ^ 32 := by
  unfold toUInt32
  omega

/-! ## Round trip of `parseOscMessage` over `buildOscMessage` -/

/-- Outbound well-formedness of one `(type, arg)` pair: the type code is
one of the natively supported `f,i,s,T,F`, the argument matches it, and
the value is one the source writes without throwing or truncating
(`writeInt32BE` throws outside the 32-bit range; a wire string cannot
contain its own NUL terminator; a float pattern is 32 bits). -/
def argOkB (t : Nat) (a : OscArg) : Bool :=
  if t = 102 then
    match a with
    | .float bits => decide (bits < 2 ^ 32)
    | _ => false
  else if t = 105 then
    match a with
    | .int v => decide (-2 ^ 31 ≤ v ∧ v < 2 ^ 31)
    | _ => false
  else if t = 115 then
    match a with
    | .str s => decide (0 ∉ s)
    | _ => false
  else if t = 84 then
    match a with
    | .bool b => b
    | _ => false
  else if t = 70 then
    match a with
    | .bool b => !b
    | _ => false
  else false

/-- A type list and an argument list of the same length, pairwise
`argOkB`. -/
def wellTypedB : List Nat → List OscArg → Bool
  | [], [] => true
  | t :: ts, a :: as => argOkB t a && wellTypedB ts as
  | _, _ => false

/-- The argument list with the entries at `T`/`F` positions removed:
what `parseOscMessage`'s loop actually pushes, since `T`/`F` fall into
its `continue` branch. -/
def stripBools : List Nat → List OscArg → List OscArg
  | [], _ => []
  | _ :: _, [] => []
  | t :: ts, a :: as =>
    if t = 84 ∨ t = 70 then stripBools ts as else a :: stripBools ts as

theorem stripBools_of_encode_nil (ts : List Nat) (as : List OscArg)
    (hwt : wellTypedB ts as = true) (henc : encodeArgs ts as = []) :
    stripBools ts as = [] := by
  induction ts generalizing as with
  | nil => cases as <;> simp [stripBools]
  | cons t ts ih =>
    cases as with
    | nil => simp [wellTypedB] at hwt
    | cons a as =>
      simp only [wellTypedB, Bool.and_eq_true] at hwt
      simp only [encodeArgs, List.append_eq_nil] at henc
      by_cases h84 : t = 84
      · simp only [stripBools, if_pos (Or.inl h84)]
        exact ih as hwt.2 henc.2
      · by_cases h70 : t = 70
        · simp only [stripBools, if_pos (Or.inr h70)]
          exact ih as hwt.2 henc.2
        · exfalso
          have hok := hwt.1
          have hbuf := henc.1
          unfold argBuf at hbuf
          by_cases h102 : t = 102
          · rw [if_pos h102] at hbuf
            cases a <;> simp [be32] at hbuf
          · rw [if_neg h102] at hbuf
            by_cases h105 : t = 105
            · rw [if_pos h105] at hbuf
              cases a <;> simp [be32] at hbuf
            · rw [if_neg h105, if_neg (by tauto : ¬(t = 84 ∨ t = 70))] at hbuf
              cases a <;> simp [writePaddedString] at hbuf

theorem parseArgs_float_step (ts : List Nat) (b : List Nat) (o : Nat)
    (h4 : o + 4 ≤ b.length) :
    parseArgs (102 :: ts) b (o : Int)
      = argsCons (.float (read32 b o)) (parseArgs ts b ((o + 4 : Nat) : Int)) := by
  conv_lhs => rw [parseArgs]
  rw [if_pos (by omega : (o : Int) < (b.length : Int)), if_pos rfl,
    if_neg (by omega : ¬(b.length : Int) < (o : Int) + 4),
    if_neg (by omega : ¬(o : Int) < 0), Int.toNat_natCast,
    show (o : Int) + 4 = ((o + 4 : Nat) : Int) by push_cast; ring]

theorem parseArgs_int_step (ts : List Nat) (b : List Nat) (o : Nat)
    (h4 : o + 4 ≤ b.length) :
    parseArgs (105 :: ts) b (o : Int)
      = argsCons (.int (fromInt32 (read32 b o)))
          (parseArgs ts b ((o + 4 : Nat) : Int)) := by
  conv_lhs => rw [parseArgs]
  rw [if_pos (by omega : (o : Int) < (b.length : Int)),
    if_neg (by decide : ¬(105 : Nat) = 102), if_pos rfl,
    if_neg (by omega : ¬(b.length : Int) < (o : Int) + 4),
    if_neg (by omega : ¬(o : Int) < 0), Int.toNat_natCast,
    show (o : Int) + 4 = ((o + 4 : Nat) : Int) by push_cast; ring]

theorem parseArgs_str_step (ts : List Nat) (b : List Nat) (o e : Nat)
    (ho : o < b.length) (he : findByte 0 b o = some e) :
    parseArgs (115 :: ts) b (o : Int)
      = argsCons (.str (listSlice b o e))
          (parseArgs ts b ((roundUp4 (e + 1) : Nat) : Int)) := by
  conv_lhs => rw [parseArgs]
  rw [if_pos (by omega : (o : Int) < (b.length : Int)),
    if_neg (by decide : ¬(115 : Nat) = 102),
    if_neg (by decide : ¬(115 : Nat) = 105), if_pos rfl]
  dsimp only
  rw [if_neg (by omega : ¬(o : Int) < 0), Int.toNat_natCast, he,
    show max (o : Int) 0 = (o : Int) by omega, Int.toNat_natCast]

theorem parseArgs_skip_step (t : Nat) (ts : List Nat) (b : List Nat) (o : Nat)
    (ho : o < b.length) (h1 : ¬t = 102) (h2 : ¬t = 105) (h3 : ¬t = 115)
    (h4 : ¬t = 98) : parseArgs (t :: ts) b (o : Int) = parseArgs ts b (o : Int) := by
  conv_lhs => rw [parseArgs]
  rw [if_pos (by omega : (o : Int) < (b.length : Int)), if_neg h1, if_neg h2,
    if_neg h3, if_neg h4]

theorem parseArgs_stop (t : Nat) (ts : List Nat) (b : List Nat) (o : Nat)
    (ho : ¬o < b.length) : parseArgs (t :: ts) b (o : Int) = .ok [] := by
  conv_lhs => rw [parseArgs]
  rw [if_neg (by omega : ¬(o : Int) < (b.length : Int))]

theorem parseArgs_float_break (ts : List Nat) (b : List Nat) (o : Nat)
    (ho : o < b.length) (h4 : ¬o + 4 ≤ b.length) :
    parseArgs (102 :: ts) b (o : Int) = .ok [] := by
  conv_lhs => rw [parseArgs]
  rw [if_pos (by omega : (o : Int) < (b.length : Int)), if_pos rfl,
    if_pos (by omega : (b.length : Int) < (o : Int) + 4)]

theorem parseArgs_int_break (ts : List Nat) (b : List Nat) (o : Nat)
    (ho : o < b.length) (h4 : ¬o + 4 ≤ b.length) :
    parseArgs (105 :: ts) b (o : Int) = .ok [] := by
  conv_lhs => rw [parseArgs]
  rw [if_pos (by omega : (o : Int) < (b.length : Int)),
    if_neg (by decide : ¬(105 : Nat) = 102), if_pos rfl,
    if_pos (by omega : (b.length : Int) < (o : Int) + 4)]

theorem parseArgs_str_none (ts : List Nat) (b : List Nat) (o : Nat)
    (ho : o < b.length) (he : findByte 0 b o = none) :
    parseArgs (115 :: ts) b (o : Int) = .ok [] := by
  conv_lhs => rw [parseArgs]
  rw [if_pos (by omega : (o : Int) < (b.length : Int)),
    if_neg (by decide : ¬(115 : Nat) = 102),
    if_neg (by decide : ¬(115 : Nat) = 105), if_pos rfl]
  dsimp only
  rw [if_neg (by omega : ¬(o : Int) < 0), Int.toNat_natCast, he]

/-- Starting from a nonnegative offset, the argument loop can throw only
through the blob branch: `f`, `i`, `s` and the skipped characters keep
the offset nonnegative, and a fixed-size read at a nonnegative offset
is range-checked by the preceding `break` guard. -/
theorem parseArgs_no_blob_no_throw (ts : List Nat) (b : List Nat) (o : Nat)
    (h98 : 98 ∉ ts) : ¬parseArgs ts b (o : Int) = ArgsOut.thrown := by
  induction ts generalizing o with
  | nil => simp [parseArgs]
  | cons t ts ih =>
    simp only [List.mem_cons, not_or] at h98
    obtain ⟨ht98, hts98⟩ := h98
    by_cases ho : o < b.length
    · by_cases h102 : t = 102
      · subst h102
        by_cases h4 : o + 4 ≤ b.length
        · rw [parseArgs_float_step ts b o h4]
          cases hp : parseArgs ts b ((o + 4 : Nat) : Int) with
          | thrown => exact absurd hp (ih (o + 4) hts98)
          | ok args => simp [argsCons]
        · rw [parseArgs_float_break ts b o ho h4]
          simp
      · by_cases h105 : t = 105
        · subst h105
          by_cases h4 : o + 4 ≤ b.length
          · rw [parseArgs_int_step ts b o h4]
            cases hp : parseArgs ts b ((o + 4 : Nat) : Int) with
            | thrown => exact absurd hp (ih (o + 4) hts98)
            | ok args => simp [argsCons]
          · rw [parseArgs_int_break ts b o ho h4]
            simp
        · by_cases h115 : t = 115
          · subst h115
            cases he : findByte 0 b o with
            | none =>
              rw [parseArgs_str_none ts b o ho he]
              simp
            | some e =>
              rw [parseArgs_str_step ts b o e ho he]
              cases hp : parseArgs ts b ((roundUp4 (e + 1) : Nat) : Int) with
              | thrown => exact absurd hp (ih (roundUp4 (e + 1)) hts98)
              | ok args => simp [argsCons]
          · rw [parseArgs_skip_step t ts b o ho h102 h105 h115 (by omega)]
            exact ih o hts98
    · rw [parseArgs_stop t ts b o ho]
      simp

theorem parseArgs_encodeArgs (ts : List Nat) (as : List OscArg) (pre : List Nat)
    (hwt : wellTypedB ts as = true) (hpre : 4 ∣ pre.length) :
    parseArgs ts (pre ++ encodeArgs ts as) (pre.length : Int)
      = .ok (stripBools ts as) := by
  induction ts generalizing as pre with
  | nil => cases as <;> rfl
  | cons t ts ih =>
    cases as with
    | nil => simp [wellTypedB] at hwt
    | cons a as =>
      simp only [wellTypedB, Bool.and_eq_true] at hwt
      obtain ⟨hok, hrest⟩ := hwt
      by_cases h102 : t = 102
      · -- float: four big-endian bytes, offset += 4
        subst h102
        obtain ⟨bits, rfl, hbits⟩ : ∃ bits, a = .float bits ∧ bits < 2 ^ 32 := by
          cases a with
          | float bits => exact ⟨bits, rfl, by simpa [argOkB] using hok⟩
          | int v => simp [argOkB] at hok
          | str s => simp [argOkB] at hok
          | blob s => simp [argOkB] at hok
          | bool v => simp [argOkB] at hok
        have hab : argBuf 102 (OscArg.float bits) = be32 bits := rfl
        have henc : encodeArgs (102 :: ts) (.float bits :: as)
            = be32 bits ++ encodeArgs ts as := by
          rw [encodeArgs, hab]
        rw [henc, ← List.append_assoc]
        have hlen : (pre ++ be32 bits).length = pre.length + 4 := by simp [be32]
        rw [parseArgs_float_step ts _ pre.length (by simp [be32])]
        rw [List.append_assoc, read32_append, read32_be32 bits hbits]
        rw [show pre.length + 4 = (pre ++ be32 bits).length from hlen.symm,
          ← List.append_assoc]
        rw [ih as (pre ++ be32 bits) hrest (by rw [hlen]; omega)]
        rfl
      · by_cases h105 : t = 105
        · -- int: four big-endian two's-complement bytes, offset += 4
          subst h105
          obtain ⟨v, rfl, hv1, hv2⟩ :
              ∃ v, a = .int v ∧ -2 ^ 31 ≤ v ∧ v < 2 ^ 31 := by
            cases a with
            | int v =>
              have hv : -2 ^ 31 ≤ v ∧ v < 2 ^ 31 := by simpa [argOkB] using hok
              exact ⟨v, rfl, hv.1, hv.2⟩
            | float bits => simp [argOkB] at hok
            | str s => simp [argOkB] at hok
            | blob s => simp [argOkB] at hok
            | bool v => simp [argOkB] at hok
          have hab : argBuf 105 (OscArg.int v) = be32 (toUInt32 v) := rfl
          have henc : encodeArgs (105 :: ts) (.int v :: as)
              = be32 (toUInt32 v) ++ encodeArgs ts as := by
            rw [encodeArgs, hab]
          rw [henc, ← List.append_assoc]
          have hlen : (pre ++ be32 (toUInt32 v)).length = pre.length + 4 := by
            simp [be32]
          rw [parseArgs_int_step ts _ pre.length (by simp [be32])]
          rw [List.append_assoc, read32_append, read32_be32 _ (toUInt32_lt v),
            fromInt32_toUInt32 v hv1 hv2]
          rw [show pre.length + 4 = (pre ++ be32 (toUInt32 v)).length
              from hlen.symm, ← List.append_assoc]
          rw [ih as (pre ++ be32 (toUInt32 v)) hrest (by rw [hlen]; omega)]
          rfl
        · by_cases h115 : t = 115
          · -- string: bytes to the NUL terminator, then round up to 4
            subst h115
            obtain ⟨s0, rfl, hs0⟩ : ∃ s0, a = .str s0 ∧ 0 ∉ s0 := by
              cases a with
              | str s0 => exact ⟨s0, rfl, by simpa [argOkB] using hok⟩
              | float bits => simp [argOkB] at hok
              | int v => simp [argOkB] at hok
              | blob s => simp [argOkB] at hok
              | bool v => simp [argOkB] at hok
            have hab : argBuf 115 (OscArg.str s0) = writePaddedString s0 := rfl
            have henc : encodeArgs (115 :: ts) (.str s0 :: as)
                = writePaddedString s0 ++ encodeArgs ts as := by
              rw [encodeArgs, hab]
            have hwps : 4 ≤ (writePaddedString s0).length := by
              rw [writePaddedString_length]; unfold roundUp4; omega
            have hsplit : writePaddedString s0 ++ encodeArgs ts as
                = s0 ++ 0 :: (List.replicate (pad4 (s0.length + 1)) 0
                  ++ encodeArgs ts as) := by
              rw [writePaddedString_eq_cons]; simp
            have hfind : findByte 0 (pre ++ (writePaddedString s0 ++ encodeArgs ts as))
                pre.length = some (pre.length + s0.length) := by
              rw [hsplit]; exact findByte_block pre s0 hs0 _
            rw [henc]
            rw [parseArgs_str_step ts _ pre.length (pre.length + s0.length)
              (by simp; omega) hfind]
            have hslice : listSlice (pre ++ (writePaddedString s0 ++ encodeArgs ts as))
                pre.length (pre.length + s0.length) = s0 := by
              rw [listSlice_block, writePaddedString_eq_cons, List.append_assoc]
              exact List.take_left s0 _
            rw [hslice]
            have hoff : roundUp4 (pre.length + s0.length + 1)
                = (pre ++ writePaddedString s0).length := by
              rw [Nat.add_assoc, roundUp4_add_left _ _ hpre]
              simp [writePaddedString_length]
            rw [hoff, ← List.append_assoc]
            rw [ih as (pre ++ writePaddedString s0) hrest
              (by simp; exact Nat.dvd_add hpre (four_dvd_writePaddedString_length s0))]
            rfl
          · -- T / F: the type character carries the value; no bytes are
            -- written, and the decode loop's `continue` branch pushes nothing
            have hTF : t = 84 ∨ t = 70 := by
              unfold argOkB at hok
              rw [if_neg h102, if_neg h105, if_neg h115] at hok
              by_cases h84 : t = 84
              · exact Or.inl h84
              · rw [if_neg h84] at hok
                by_cases h70 : t = 70
                · exact Or.inr h70
                · rw [if_neg h70] at hok; exact absurd hok (by simp)
            have hargBuf : argBuf t a = [] := by
              unfold argBuf
              rw [if_neg h102, if_neg h105, if_pos hTF]
            have henc : encodeArgs (t :: ts) (a :: as) = encodeArgs ts as := by
              rw [encodeArgs, hargBuf]; rfl
            rw [henc]
            have hstrip : stripBools (t :: ts) (a :: as) = stripBools ts as := by
              rw [stripBools, if_pos hTF]
            rw [hstrip]
            have ht98 : ¬t = 98 := by rcases hTF with h | h <;> omega
            rcases hE : encodeArgs ts as with _ | ⟨e, E⟩
            · -- nothing follows: the loop guard `offset < buffer.length`
              -- fails and the remaining (all-boolean) types are never reached
              rw [parseArgs_stop t ts _ pre.length (by simp)]
              rw [stripBools_of_encode_nil ts as hrest hE]
            · rw [parseArgs_skip_step t ts _ pre.length
                (by simp) h102 h105 h115 ht98, ← hE]
              exact ih as pre hrest hpre

/-- Reduction of `parseOscMessage` once both NUL scans are known: the
outcome is the argument loop's outcome, a throw escaping as `.thrown`. -/
theorem parseOscMessage_eq (b : List Nat) (aEnd tEnd : Nat)
    (h0 : findByte 0 b 0 = some aEnd)
    (hlen : ¬b.length ≤ roundUp4 (aEnd + 1))
    (h1 : findByte 0 b (roundUp4 (aEnd + 1)) = some tEnd) :
    parseOscMessage b
      = (match parseArgs ((listSlice b (roundUp4 (aEnd + 1)) tEnd).drop 1) b
          ((roundUp4 (tEnd + 1) : Nat) : Int) with
        | .thrown => ParseOut.thrown
        | .ok args => ParseOut.ok ⟨listSlice b 0 aEnd,
            (listSlice b (roundUp4 (aEnd + 1)) tEnd).drop 1, args⟩) := by
  unfold parseOscMessage
  rw [h0]
  dsimp only
  rw [if_neg hlen, h1]

/-- `argOkB` only accepts the five natively supported type codes. -/
theorem argOkB_types (t : Nat) (a : OscArg) (h : argOkB t a = true) :
    t = 102 ∨ t = 105 ∨ t = 115 ∨ t = 84 ∨ t = 70 := by
  unfold argOkB at h
  by_cases h102 : t = 102
  · exact Or.inl h102
  · rw [if_neg h102] at h
    by_cases h105 : t = 105
    · exact Or.inr (Or.inl h105)
    · rw [if_neg h105] at h
      by_cases h115 : t = 115
      · exact Or.inr (Or.inr (Or.inl h115))
      · rw [if_neg h115] at h
        by_cases h84 : t = 84
        · exact Or.inr (Or.inr (Or.inr (Or.inl h84)))
        · rw [if_neg h84] at h
          by_cases h70 : t = 70
          · exact Or.inr (Or.inr (Or.inr (Or.inr h70)))
          · rw [if_neg h70] at h; exact absurd h (by simp)

/-- A well-typed outbound type list never contains a NUL byte. -/
theorem wellTypedB_zero_not_mem (ts : List Nat) (as : List OscArg)
    (h : wellTypedB ts as = true) : 0 ∉ ts := by
  induction ts generalizing as with
  | nil => simp
  | cons t ts ih =>
    cases as with
    | nil => simp [wellTypedB] at h
    | cons a as =>
      simp only [wellTypedB, Bool.and_eq_true] at h
      have ht := argOkB_types t a h.1
      have hih := ih as h.2
      simp only [List.mem_cons, not_or]
      exact ⟨by omega, hih⟩

/-- Well-formed round trip of the codec: on any NUL-free address and any
well-typed `f,i,s,T,F` argument list, decode of encode returns the
address and the type list unchanged, and returns the argument list with
the boolean (`T`/`F`) entries removed — the decode loop's `continue`
branch never pushes a value for them. -/
theorem parse_build (addr ts : List Nat) (as : List OscArg)
    (haddr : 0 ∉ addr) (hwt : wellTypedB ts as = true) :
    parseOscMessage (buildOscMessage addr ts as)
      = ParseOut.ok ⟨addr, ts, stripBools ts as⟩ := by
  have hts0 : 0 ∉ (44 : Nat) :: ts := by
    simp only [List.mem_cons, not_or]
    exact ⟨by omega, wellTypedB_zero_not_mem ts as hwt⟩
  obtain ⟨A, hA⟩ : ∃ x, writePaddedString addr = x := ⟨_, rfl⟩
  obtain ⟨T, hT⟩ : ∃ x, writePaddedString (44 :: ts) = x := ⟨_, rfl⟩
  obtain ⟨E, hEq⟩ : ∃ x, encodeArgs ts as = x := ⟨_, rfl⟩
  have hAlen : A.length = roundUp4 (addr.length + 1) := by
    rw [← hA, writePaddedString_length]
  have hTlen : T.length = roundUp4 (ts.length + 2) := by
    rw [← hT, writePaddedString_length]; simp
  have hA4 : 4 ∣ A.length := by
    rw [← hA]; exact four_dvd_writePaddedString_length addr
  have hT4 : 4 ∣ T.length := by
    rw [← hT]; exact four_dvd_writePaddedString_length (44 :: ts)
  have hT4ge : 4 ≤ T.length := by rw [hTlen]; unfold roundUp4; omega
  have hshape0 : A ++ T ++ E
      = addr ++ 0 :: (List.replicate (pad4 (addr.length + 1)) 0 ++ (T ++ E)) := by
    rw [← hA, writePaddedString_eq_cons]; simp
  have h0 : findByte 0 (A ++ T ++ E) 0 = some addr.length := by
    rw [hshape0]
    unfold findByte
    rw [List.drop_zero, findByteAux_append_zero addr haddr _ 0]
    simp
  have hshapeT : A ++ T ++ E
      = A ++ ((44 :: ts) ++ 0 :: (List.replicate (pad4 (ts.length + 2)) 0 ++ E)) := by
    rw [← hT, writePaddedString_eq_cons]; simp
  have h1 : findByte 0 (A ++ T ++ E) A.length
      = some (A.length + (ts.length + 1)) := by
    rw [hshapeT]
    have hfb := findByte_block A (44 :: ts) hts0
      (List.replicate (pad4 (ts.length + 2)) 0 ++ E)
    simpa using hfb
  have hblen : (A ++ T ++ E).length = A.length + T.length + E.length := by
    simp [Nat.add_assoc]
  have hlen : ¬(A ++ T ++ E).length ≤ roundUp4 (addr.length + 1) := by
    rw [← hAlen]; omega
  have h1r : findByte 0 (A ++ T ++ E) (roundUp4 (addr.length + 1))
      = some (A.length + (ts.length + 1)) := by
    rw [← hAlen]; exact h1
  have hb : buildOscMessage addr ts as = A ++ T ++ E := by
    rw [buildOscMessage, hA, hT, hEq]
  rw [hb, parseOscMessage_eq (A ++ T ++ E) addr.length
    (A.length + (ts.length + 1)) h0 hlen h1r]
  have haddr_slice : listSlice (A ++ T ++ E) 0 addr.length = addr := by
    rw [hshape0]
    exact listSlice_zero addr _
  have htag_slice : listSlice (A ++ T ++ E) (roundUp4 (addr.length + 1))
      (A.length + (ts.length + 1)) = 44 :: ts := by
    rw [← hAlen, hshapeT,
      show A.length + (ts.length + 1) = A.length + ((44 : Nat) :: ts).length by simp,
      listSlice_block]
    exact List.take_left _ _
  have hoff2 : roundUp4 (A.length + (ts.length + 1) + 1) = (A ++ T).length := by
    rw [Nat.add_assoc, roundUp4_add_left _ _ hA4]
    simp [hTlen]
  rw [htag_slice]
  simp only [List.drop_succ_cons, List.drop_zero]
  have hargs : parseArgs ts (A ++ T ++ E)
      ((roundUp4 (A.length + (ts.length + 1) + 1) : Nat) : Int)
      = .ok (stripBools ts as) := by
    rw [hoff2, ← hEq]
    exact parseArgs_encodeArgs ts as (A ++ T) hwt
      (by simp; exact Nat.dvd_add hA4 hT4)
  rw [hargs]
  dsimp only
  rw [haddr_slice]

/-- Without `T`/`F` entries, `stripBools` keeps the argument list. -/
theorem stripBools_eq_self (ts : List Nat) (as : List OscArg)
    (hwt : wellTypedB ts as = true) (hTF : ∀ t ∈ ts, ¬t = 84 ∧ ¬t = 70) :
    stripBools ts as = as := by
  induction ts generalizing as with
  | nil => cases as with
    | nil => rfl
    | cons a as => simp [wellTypedB] at hwt
  | cons t ts ih =>
    cases as with
    | nil => simp [wellTypedB] at hwt
    | cons a as =>
      simp only [wellTypedB, Bool.and_eq_true] at hwt
      have hh := hTF t (by simp)
      rw [stripBools, if_neg (by tauto)]
      rw [ih as hwt.2 (fun u hu => hTF u (by simp [hu]))]

/-- `parseOscMessage` returns `null` exactly when a NUL scan fails:
either the address scan from offset 0, or the type-tag scan from the
padded offset past the address (when the datagram reaches it).  No other
code path returns `null` — though the argument loop can throw. -/
theorem parseOscMessage_null_iff (b : List Nat) :
    parseOscMessage b = ParseOut.null ↔
      (findByte 0 b 0 = none ∨
        ∃ e, findByte 0 b 0 = some e ∧ ¬b.length ≤ roundUp4 (e + 1) ∧
          findByte 0 b (roundUp4 (e + 1)) = none) := by
  unfold parseOscMessage
  cases h0 : findByte 0 b 0 with
  | none => simp
  | some e =>
    dsimp only
    by_cases hle : b.length ≤ roundUp4 (e + 1)
    · rw [if_pos hle]
      simp [hle]
    · rw [if_neg hle]
      cases h1 : findByte 0 b (roundUp4 (e + 1)) with
      | none => simp [hle, h1]; omega
      | some t =>
        dsimp only
        constructor
        · intro hcontra
          split at hcontra <;> simp at hcontra
        · rintro (hcase | ⟨e2, he2, hlt2, hn2⟩)
          · exact absurd hcase (by simp)
          · injection he2 with he2
            subst he2
            rw [h1] at hn2
            exact absurd hn2 (by simp)

/-- A datagram whose type-tag block is NUL-terminated decodes without
rejection whatever its first tag character is; that character is
unconditionally discarded (`typeTag.substring(1)`). -/
theorem parse_tag_first_char_dropped (addr tag : List Nat)
    (haddr : 0 ∉ addr) (htag : 0 ∉ tag) :
    parseOscMessage (writePaddedString addr ++ writePaddedString tag)
      = ParseOut.ok ⟨addr, tag.drop 1, []⟩ := by
  obtain ⟨A, hA⟩ : ∃ x, writePaddedString addr = x := ⟨_, rfl⟩
  obtain ⟨T, hT⟩ : ∃ x, writePaddedString tag = x := ⟨_, rfl⟩
  have hAlen : A.length = roundUp4 (addr.length + 1) := by
    rw [← hA, writePaddedString_length]
  have hTlen : T.length = roundUp4 (tag.length + 1) := by
    rw [← hT, writePaddedString_length]
  have hA4 : 4 ∣ A.length := by
    rw [← hA]; exact four_dvd_writePaddedString_length addr
  have hT4ge : 4 ≤ T.length := by rw [hTlen]; unfold roundUp4; omega
  have hshape0 : A ++ T
      = addr ++ 0 :: (List.replicate (pad4 (addr.length + 1)) 0 ++ T) := by
    rw [← hA, writePaddedString_eq_cons]; simp
  have h0 : findByte 0 (A ++ T) 0 = some addr.length := by
    rw [hshape0]
    unfold findByte
    rw [List.drop_zero, findByteAux_append_zero addr haddr _ 0]
    simp
  have hshapeT : A ++ T
      = A ++ (tag ++ 0 :: List.replicate (pad4 (tag.length + 1)) 0) := by
    rw [← hT, writePaddedString_eq_cons]
  have h1 : findByte 0 (A ++ T) A.length = some (A.length + tag.length) := by
    rw [hshapeT]
    exact findByte_block A tag htag _
  have hblen : (A ++ T).length = A.length + T.length := by simp
  have hlen : ¬(A ++ T).length ≤ roundUp4 (addr.length + 1) := by
    rw [← hAlen]; omega
  have h1r : findByte 0 (A ++ T) (roundUp4 (addr.length + 1))
      = some (A.length + tag.length) := by
    rw [← hAlen]; exact h1
  rw [hA, hT, parseOscMessage_eq (A ++ T) addr.length (A.length + tag.length)
    h0 hlen h1r]
  have haddr_slice : listSlice (A ++ T) 0 addr.length = addr := by
    rw [hshape0]
    exact listSlice_zero addr _
  have htag_slice : listSlice (A ++ T) (roundUp4 (addr.length + 1))
      (A.length + tag.length) = tag := by
    rw [← hAlen, hshapeT, listSlice_block]
    exact List.take_left tag _
  have hoff2 : roundUp4 (A.length + tag.length + 1) = (A ++ T).length := by
    rw [Nat.add_assoc, roundUp4_add_left _ _ hA4, hblen, hTlen]
  rw [htag_slice, hoff2]
  have hargs : parseArgs (tag.drop 1) (A ++ T) (((A ++ T).length : Nat) : Int)
      = .ok [] := by
    cases htl : tag.drop 1 with
    | nil => rfl
    | cons u us => exact parseArgs_stop u us (A ++ T) (A ++ T).length (by omega)
  rw [hargs]
  dsimp only
  rw [haddr_slice]

/-! ## Frame demuxer (the stdout `data` handler of spout-bridge.js,
identical in `startStreamCapture`, `tryDirectSpoutCapture`,
`startOBSCameraCapture` and `startDesktopCapture`) -/

/-- Scan of `buffer.indexOf(Buffer.from([u, v]), s)` for a two-byte
needle: walk the suffix carrying the absolute index; a hit needs both
bytes present. -/
def findPairAux (u v : Nat) : List Nat → Nat → Option Nat
  | [], _ => none
  | [_], _ => none
  | x :: y :: rest, i =>
    if x = u ∧ y = v then some i else findPairAux u v (y :: rest) (i + 1)

/-- `buffer.indexOf(Buffer.from([u, v]), s)`: first absolute index
`≥ s` where the two bytes match. -/
def findPair (u v : Nat) (b : List Nat) (s : Nat) : Option Nat :=
  findPairAux u v (b.drop s) s

/-- The `while (startIndex < buffer.length)` loop of the `data` handler
(spout-bridge.js lines 100–118), fuelled: each iteration either emits a
frame and advances `startIndex` by at least 4, or reassigns `buffer` and
breaks.  Returns (frames emitted in order, the `buffer` variable at loop
exit — reassigned by the two `break` paths — and the final
`startIndex`).  `demuxChunk` always supplies enough fuel
(`demuxLoop_fuel`); the fuel-exhausted row is unreachable from it. -/
def demuxLoop : Nat → List Nat → Nat → List (List Nat) × List Nat × Nat
  | 0, b, s => ([], b, s)
  | fuel + 1, b, s =>
    if s < b.length then
      match findPair 255 216 b s with
      | none => ([], b.drop s, s)
      | some j =>
        match findPair 255 217 b (j + 2) with
        | none => ([], b.drop j, s)
        | some k =>
          let r := demuxLoop fuel b (k + 2)
          (listSlice b j (k + 2) :: r.1, r.2)
    else ([], b, s)

/-- Body of the `data` handler after the concatenation: run the loop
from `startIndex = 0`, then apply the trailing
`if (startIndex < buffer.length) buffer = buffer.slice(startIndex) else
buffer = Buffer.alloc(0)` — note this final slice acts on the buffer
*as reassigned by the loop's break paths*, with the stale `startIndex`.
Returns (frames emitted in order, retained buffer). -/
def demuxChunkB (b : List Nat) : List (List Nat) × List Nat :=
  let r := demuxLoop (b.length + 1) b 0
  (r.1, if r.2.2 < r.2.1.length then r.2.1.drop r.2.2 else [])

/-- One invocation of the `data` handler (spout-bridge.js lines 95–125):
`buffer = Buffer.concat([buffer, chunk])`, then the loop and the final
slice. -/
def demuxChunk (buffer chunk : List Nat) : List (List Nat) × List Nat :=
  demuxChunkB (buffer ++ chunk)

/-- The accumulation buffer plus `currentFrameBuffer` (the latest
completed frame, `null` before the first one). -/
structure DemuxState where
  buffer : List Nat
  latest : Option (List Nat)
deriving DecidableEq, Repr

/-- Initial state: empty buffer, `currentFrameBuffer = null`. -/
def initDemux : DemuxState := ⟨[], none⟩

/-- One `data` event: run the handler; each emitted frame overwrites
`currentFrameBuffer` in order, so the last one wins. -/
def demuxStep (st : DemuxState) (chunk : List Nat) :
    DemuxState × List (List Nat) :=
  let r := demuxChunk st.buffer chunk
  (⟨r.2, match r.1.getLast? with | some f => some f | none => st.latest⟩, r.1)

/-- A whole sequence of `data` events, collecting every emitted frame in
arrival order. -/
def demuxFeed (st : DemuxState) : List (List Nat) → DemuxState × List (List Nat)
  | [] => (st, [])
  | c :: cs =>
    let r1 := demuxStep st c
    let r2 := demuxFeed r1.1 cs
    (r2.1, r1.2 ++ r2.2)

/-! ### Demuxer lemmas -/

theorem findPairAux_bounds (u v : Nat) (l : List Nat) (i j : Nat)
    (h : findPairAux u v l i = some j) : i ≤ j ∧ j - i + 1 < l.length := by
  induction l generalizing i with
  | nil => simp [findPairAux] at h
  | cons x rest ih =>
    cases rest with
    | nil => simp [findPairAux] at h
    | cons y rest2 =>
      unfold findPairAux at h
      by_cases hxy : x = u ∧ y = v
      · rw [if_pos hxy] at h
        injection h with h
        subst h
        simp
      · rw [if_neg hxy] at h
        have := ih (i + 1) h
        constructor
        · omega
        · simp only [List.length_cons] at this ⊢
          omega

theorem findPair_bounds (u v : Nat) (b : List Nat) (s j : Nat)
    (h : findPair u v b s = some j) : s ≤ j ∧ j + 1 < b.length := by
  have := findPairAux_bounds u v (b.drop s) s j h
  have hd : (b.drop s).length = b.length - s := by simp
  omega

/-- The loop result does not depend on the fuel once the fuel covers the
remaining bytes: every iteration advances `startIndex` by at least 4. -/
theorem demuxLoop_fuel (f1 f2 : Nat) (b : List Nat) (s : Nat)
    (h1 : b.length ≤ f1 + s) (h2 : b.length ≤ f2 + s) :
    demuxLoop f1 b s = demuxLoop f2 b s := by
  induction f1 generalizing f2 s with
  | zero =>
    cases f2 with
    | zero => rfl
    | succ f2 =>
      show ([], b, s) = demuxLoop (f2 + 1) b s
      unfold demuxLoop
      rw [if_neg (by omega)]
  | succ f1 ih =>
    cases f2 with
    | zero =>
      show demuxLoop (f1 + 1) b s = ([], b, s)
      unfold demuxLoop
      rw [if_neg (by omega)]
    | succ f2 =>
      by_cases hs : s < b.length
      · unfold demuxLoop
        rw [if_pos hs, if_pos hs]
        cases hj : findPair 255 216 b s with
        | none => rfl
        | some j =>
          dsimp only
          cases hk : findPair 255 217 b (j + 2) with
          | none => rfl
          | some k =>
            dsimp only
            have hjb := findPair_bounds 255 216 b s j hj
            have hkb := findPair_bounds 255 217 b (j + 2) k hk
            rw [ih f2 (k + 2) (by omega) (by omega)]
      · unfold demuxLoop
        rw [if_neg hs, if_neg hs]

theorem demuxLoop_done (fuel : Nat) (b : List Nat) (s : Nat)
    (h : ¬s < b.length) : demuxLoop fuel b s = ([], b, s) := by
  cases fuel with
  | zero => rfl
  | succ fuel => unfold demuxLoop; rw [if_neg h]

theorem getD_take (l : List Nat) (m j d : Nat) (h : j < m) :
    (l.take m).getD j d = l.getD j d := by
  rw [List.getD_eq_getElem?_getD, List.getD_eq_getElem?_getD,
    List.getElem?_take_of_lt h]

theorem getD_drop (l : List Nat) (i j d : Nat) :
    (l.drop i).getD j d = l.getD (i + j) d := by
  rw [List.getD_eq_getElem?_getD, List.getD_eq_getElem?_getD,
    List.getElem?_drop]

theorem take_succ_getD (l : List Nat) (m : Nat) (h : m < l.length) :
    l.take (m + 1) = l.take m ++ [l.getD m 0] := by
  rw [List.take_succ]
  congr 1
  rw [List.getD_eq_getElem?_getD]
  cases hx : l[m]? with
  | none => exact absurd (List.getElem?_eq_none_iff.mp hx) (by omega)
  | some x => simp [hx]

/-- `findPairAux` misses when no adjacent pair matches anywhere. -/
theorem findPairAux_eq_none (u v : Nat) (l : List Nat) (i : Nat)
    (h : ∀ j, j + 1 < l.length → ¬(l.getD j 0 = u ∧ l.getD (j + 1) 0 = v)) :
    findPairAux u v l i = none := by
  induction l generalizing i with
  | nil => rfl
  | cons x rest ih =>
    cases rest with
    | nil => rfl
    | cons y rest2 =>
      have h0 := h 0 (by simp)
      unfold findPairAux
      rw [if_neg (by simpa using h0)]
      exact ih (i + 1) (fun j hj => by
        have := h (j + 1) (by simpa using hj)
        simpa using this)

/-- `findPairAux` hits the first matching adjacent pair. -/
theorem findPairAux_first (u v : Nat) (l : List Nat) (i j : Nat)
    (hj : j + 1 < l.length) (hu : l.getD j 0 = u) (hv : l.getD (j + 1) 0 = v)
    (hmin : ∀ j2, j2 < j → ¬(l.getD j2 0 = u ∧ l.getD (j2 + 1) 0 = v)) :
    findPairAux u v l i = some (i + j) := by
  induction l generalizing i j with
  | nil => simp at hj
  | cons x rest ih =>
    cases rest with
    | nil => simp at hj
    | cons y rest2 =>
      cases j with
      | zero =>
        unfold findPairAux
        rw [if_pos ⟨by simpa using hu, by simpa using hv⟩]
        simp
      | succ j =>
        have h0 := hmin 0 (by omega)
        unfold findPairAux
        rw [if_neg (by simpa using h0)]
        rw [ih (i + 1) j (by simpa using hj) (by simpa using hu)
          (by simpa using hv)
          (fun j2 hj2 => by
            have := hmin (j2 + 1) (by omega)
            simpa using this)]
        congr 1
        omega

/-- A well-formed MJPEG frame of size at most `S`: begins with the
`FF D8` start marker, ends with the `FF D9` end marker, and contains no
other occurrence of the end-marker pair. -/
def wfFrame (S : Nat) (f : List Nat) : Prop :=
  4 ≤ f.length ∧ f.length ≤ S ∧
  f.getD 0 0 = 255 ∧ f.getD 1 0 = 216 ∧
  f.getD (f.length - 2) 0 = 255 ∧ f.getD (f.length - 1) 0 = 217 ∧
  ∀ j ∈ List.range f.length, j + 1 < f.length → f.getD j 0 = 255 →
    f.getD (j + 1) 0 = 217 → j = f.length - 2

instance (S : Nat) (f : List Nat) : Decidable (wfFrame S f) := by
  unfold wfFrame
  infer_instance

/-- Feeding one more byte of a well-formed frame into the handler: a
still-incomplete frame is retained whole; the byte completing the frame
emits it and empties the buffer. -/
theorem demuxChunk_take_step (S : Nat) (f : List Nat) (hf : wfFrame S f)
    (m : Nat) (hm1 : 1 ≤ m) (hm2 : m ≤ f.length) :
    demuxChunk (f.take (m - 1)) [f.getD (m - 1) 0]
      = if m = f.length then ([f], []) else ([], f.take m) := by
  obtain ⟨h4, hS, h0, h1, he1, he2, hnone⟩ := hf
  have hq : f.take (m - 1) ++ [f.getD (m - 1) 0] = f.take m := by
    have := take_succ_getD f (m - 1) (by omega)
    rw [show m - 1 + 1 = m by omega] at this
    exact this.symm
  rw [demuxChunk, hq]
  have hqlen : (f.take m).length = m := by simp; omega
  by_cases hm2' : 2 ≤ m
  · -- the start marker is visible at index 0
    have hfind1 : findPair 255 216 (f.take m) 0 = some 0 := by
      unfold findPair
      rw [List.drop_zero]
      have := findPairAux_first 255 216 (f.take m) 0 0 (by omega)
        (by rw [getD_take _ _ _ _ (by omega)]; exact h0)
        (by rw [getD_take _ _ _ _ (by omega)]; exact h1)
        (fun j2 hj2 => absurd hj2 (by omega))
      simpa using this
    by_cases hmf : m = f.length
    · -- the frame is complete: the end marker is found and it is emitted
      subst hmf
      rw [List.take_length] at hfind1 hq ⊢
      have hfind2 : findPair 255 217 f 2 = some (f.length - 2) := by
        unfold findPair
        have := findPairAux_first 255 217 (f.drop 2) 2 (f.length - 4)
          (by simp; omega)
          (by rw [getD_drop, show 2 + (f.length - 4) = f.length - 2 by omega]
              exact he1)
          (by rw [getD_drop, show 2 + (f.length - 4 + 1) = f.length - 1 by omega]
              exact he2)
          (fun j2 hj2 => by
            rintro ⟨hpu, hpv⟩
            rw [getD_drop] at hpu hpv
            have := hnone (2 + j2) (by simp; omega) (by omega) hpu
              (by rw [show 2 + j2 + 1 = 2 + (j2 + 1) by omega]; exact hpv)
            omega)
        rw [this]
        congr 1
        omega
      unfold demuxChunkB
      unfold demuxLoop
      rw [if_pos (by omega), hfind1]
      dsimp only
      rw [hfind2]
      dsimp only
      rw [demuxLoop_done _ _ _ (by omega)]
      have hslice : listSlice f 0 (f.length - 2 + 2) = f := by
        unfold listSlice
        rw [show f.length - 2 + 2 = f.length by omega, List.take_length,
          List.drop_zero]
      rw [hslice]
      simp
      omega
    · -- still incomplete: no end marker yet, buffer retained whole
      have hmlt : m < f.length := by omega
      have hfind2 : findPair 255 217 (f.take m) 2 = none := by
        unfold findPair
        apply findPairAux_eq_none
        intro j hj
        rintro ⟨hpu, hpv⟩
        rw [getD_drop] at hpu hpv
        have hjm : 2 + j + 1 < m := by
          have : ((f.take m).drop 2).length = m - 2 := by simp; omega
          omega
        rw [getD_take _ _ _ _ (by omega)] at hpu
        rw [getD_take _ _ _ _ (by omega)] at hpv
        have := hnone (2 + j) (by simp; omega) (by omega) hpu
          (by rw [show 2 + j + 1 = 2 + (j + 1) by omega]; exact hpv)
        omega
      unfold demuxChunkB
      unfold demuxLoop
      rw [if_pos (by omega), hfind1]
      dsimp only
      rw [hfind2]
      dsimp only
      rw [if_neg hmf, List.drop_zero, if_pos (by omega), List.drop_zero]
  · -- a single byte: the two-byte start marker cannot match yet
    have hm1' : m = 1 := by omega
    have hfind1 : findPair 255 216 (f.take m) 0 = none := by
      unfold findPair
      apply findPairAux_eq_none
      intro j hj
      rw [List.drop_zero, hqlen] at hj
      omega
    have hne : ¬m = f.length := by omega
    unfold demuxChunkB
    unfold demuxLoop
    rw [if_pos (by omega), hfind1]
    dsimp only
    rw [if_neg hne, List.drop_zero, if_pos (by omega), List.drop_zero]

/-- Delivery of a byte string one byte per `data` event. -/
def byteChunks (bytes : List Nat) : List (List Nat) :=
  bytes.map fun x => [x]

/-- `demuxFeed` splits over concatenated event lists. -/
theorem demuxFeed_append (st : DemuxState) (cs1 cs2 : List (List Nat)) :
    demuxFeed st (cs1 ++ cs2)
      = ((demuxFeed (demuxFeed st cs1).1 cs2).1,
         (demuxFeed st cs1).2 ++ (demuxFeed (demuxFeed st cs1).1 cs2).2) := by
  induction cs1 generalizing st with
  | nil => simp [demuxFeed]
  | cons c cs ih =>
    rw [show (c :: cs) ++ cs2 = c :: (cs ++ cs2) from rfl]
    simp only [demuxFeed]
    rw [ih]
    simp [List.append_assoc]

/-- Feeding one well-formed frame byte-by-byte from an empty buffer:
while incomplete the buffer is exactly the received prefix; the final
byte emits the frame and resets the buffer, leaving the frame as
`currentFrameBuffer`. -/
theorem feed_frame_bytes (S : Nat) (f : List Nat) (hf : wfFrame S f)
    (l : Option (List Nat)) (m : Nat) (hm : m ≤ f.length) :
    demuxFeed ⟨[], l⟩ (byteChunks (f.take m))
      = if m = f.length then (⟨[], some f⟩, [f])
        else (⟨f.take m, l⟩, []) := by
  induction m with
  | zero =>
    rw [if_neg (by have := hf.1; omega)]
    simp [byteChunks, demuxFeed]
  | succ m ih =>
    have hmle : m ≤ f.length := by omega
    have hmne : ¬m = f.length := by omega
    rw [take_succ_getD f m (by omega)]
    rw [show byteChunks (f.take m ++ [f.getD m 0])
        = byteChunks (f.take m) ++ [[f.getD m 0]] by
      simp [byteChunks]]
    rw [demuxFeed_append, ih hmle, if_neg hmne]
    have hstep := demuxChunk_take_step S f hf (m + 1) (by omega) hm
    rw [show m + 1 - 1 = m by omega] at hstep
    rw [take_succ_getD f m (by omega)] at hstep
    by_cases hc : m + 1 = f.length
    · rw [if_pos hc] at hstep ⊢
      simp only [demuxFeed, demuxStep, hstep]
      rfl
    · rw [if_neg hc] at hstep ⊢
      simp only [demuxFeed, demuxStep, hstep]
      rfl

/-- Streaming any number of well-formed frames of size at most `S` one
byte at a time keeps the accumulation buffer within `S` bytes at every
step, however many frames and bytes have passed. -/
theorem feed_frames_bound (S : Nat) (frames : List (List Nat))
    (hwf : ∀ f ∈ frames, wfFrame S f) (l : Option (List Nat)) (k : Nat) :
    ((demuxFeed ⟨[], l⟩ (byteChunks ((frames.flatten).take k))).1).buffer.length
      ≤ S := by
  induction frames generalizing l k with
  | nil => simp [byteChunks, demuxFeed]
  | cons f rest ih =>
    have hf := hwf f (by simp)
    by_cases hk : k ≤ f.length
    · rw [show (f :: rest).flatten = f ++ rest.flatten from rfl,
        List.take_append_of_le_length hk,
        feed_frame_bytes S f hf l k hk]
      by_cases hkf : k = f.length
      · rw [if_pos hkf]; simp
      · rw [if_neg hkf]
        have : (f.take k).length ≤ f.length := by simp
        have hfS := hf.2.1
        simpa using by omega
    · push_neg at hk
      rw [show (f :: rest).flatten = f ++ rest.flatten from rfl,
        show k = f.length + (k - f.length) by omega, List.take_append,
        show byteChunks (f ++ (rest.flatten).take (k - f.length))
            = byteChunks f ++ byteChunks ((rest.flatten).take (k - f.length)) by
          simp [byteChunks],
        demuxFeed_append]
      have h1 := feed_frame_bytes S f hf l f.length (Nat.le_refl _)
      rw [List.take_length, if_pos rfl] at h1
      rw [h1]
      exact ih (fun g hg => hwf g (by simp [hg])) (some f) (k - f.length)

/-- Every frame the loop emits spans from a start marker through an end
marker inclusive, hence is at least 4 bytes long. -/
theorem demuxLoop_frames_length (fuel : Nat) (b : List Nat) (s : Nat)
    (fr : List Nat) (hfr : fr ∈ (demuxLoop fuel b s).1) : 4 ≤ fr.length := by
  induction fuel generalizing s with
  | zero => simp [demuxLoop] at hfr
  | succ fuel ih =>
    unfold demuxLoop at hfr
    by_cases hs : s < b.length
    · rw [if_pos hs] at hfr
      cases hj : findPair 255 216 b s with
      | none => rw [hj] at hfr; simp at hfr
      | some j =>
        rw [hj] at hfr
        dsimp only at hfr
        cases hk : findPair 255 217 b (j + 2) with
        | none => rw [hk] at hfr; simp at hfr
        | some k =>
          rw [hk] at hfr
          dsimp only at hfr
          rcases List.mem_cons.mp hfr with rfl | hfr2
          · have hjb := findPair_bounds 255 216 b s j hj
            have hkb := findPair_bounds 255 217 b (j + 2) k hk
            unfold listSlice
            simp
            omega
          · exact ih (k + 2) hfr2
    · rw [if_neg hs] at hfr
      simp at hfr

theorem demuxFeed_frames_length (st : DemuxState) (cs : List (List Nat))
    (fr : List Nat) (hfr : fr ∈ (demuxFeed st cs).2) : 4 ≤ fr.length := by
  induction cs generalizing st with
  | nil => simp [demuxFeed] at hfr
  | cons c cs ih =>
    simp only [demuxFeed] at hfr
    rcases List.mem_append.mp hfr with h | h
    · exact demuxLoop_frames_length _ _ _ fr h
    · exact ih _ h

/-- After any feed, `currentFrameBuffer` holds the most recently emitted
frame (or the value it held before, when this feed emitted nothing). -/
theorem demuxFeed_latest (st : DemuxState) (cs : List (List Nat)) :
    (demuxFeed st cs).1.latest
      = match (demuxFeed st cs).2.getLast? with
        | some f => some f
        | none => st.latest := by
  induction cs generalizing st with
  | nil => rfl
  | cons c cs ih =>
    simp only [demuxFeed]
    rw [ih]
    rw [List.getLast?_append]
    cases h2 : (demuxFeed (demuxStep st c).1 cs).2.getLast? with
    | some f => rfl
    | none =>
      cases h1 : (demuxStep st c).2.getLast? with
      | some g =>
        show (demuxStep st c).1.latest = some g
        unfold demuxStep
        dsimp only
        rw [show (demuxChunk st.buffer c).1.getLast?
            = (demuxStep st c).2.getLast? from rfl, h1]
      | none =>
        show (demuxStep st c).1.latest = st.latest
        unfold demuxStep
        dsimp only
        rw [show (demuxChunk st.buffer c).1.getLast?
            = (demuxStep st c).2.getLast? from rfl, h1]

/-- `sendFrame` of the `/mjpeg` handler (spout-bridge.js lines 703–716):
one multipart segment per tick when a frame exists — the declared
`Content-Length` and the raw bytes — and nothing otherwise. -/
def sendFrameTick (cur : Option (List Nat)) : Option (Nat × List Nat) :=
  match cur with
  | some f => if 0 < f.length then some (f.length, f) else none
  | none => none

/-- A per-chunk characterisation of the handler in terms of the marker
scans (used for the amended C5). -/
theorem demuxChunkB_cases (b : List Nat) :
    (findPair 255 216 b 0 = none → demuxChunkB b = ([], b)) ∧
    (∀ j, findPair 255 216 b 0 = some j → findPair 255 217 b (j + 2) = none →
      demuxChunkB b = ([], b.drop j)) ∧
    (∀ j k, findPair 255 216 b 0 = some j →
      findPair 255 217 b (j + 2) = some k →
      demuxChunkB b
        = (listSlice b j (k + 2) :: (demuxLoop (b.length + 1) b (k + 2)).1,
           if (demuxLoop (b.length + 1) b (k + 2)).2.2
               < (demuxLoop (b.length + 1) b (k + 2)).2.1.length
           then (demuxLoop (b.length + 1) b (k + 2)).2.1.drop
               (demuxLoop (b.length + 1) b (k + 2)).2.2
           else [])) := by
  refine ⟨?_, ?_, ?_⟩
  · intro hnone
    by_cases hb : 0 < b.length
    · unfold demuxChunkB demuxLoop
      rw [if_pos hb, hnone]
      dsimp only
      rw [List.drop_zero, if_pos (by simpa using hb), List.drop_zero]
    · unfold demuxChunkB
      rw [demuxLoop_done _ _ _ hb]
      have : b = [] := List.length_eq_zero.mp (by omega)
      subst this
      rfl
  · intro j hj hk
    have hjb := findPair_bounds 255 216 b 0 j hj
    unfold demuxChunkB demuxLoop
    rw [if_pos (by omega), hj]
    dsimp only
    rw [hk]
    dsimp only
    rw [if_pos (by simp; omega), List.drop_zero]
  · intro j k hj hk
    have hjb := findPair_bounds 255 216 b 0 j hj
    have hkb := findPair_bounds 255 217 b (j + 2) k hk
    unfold demuxChunkB
    conv_lhs => rw [demuxLoop]
    rw [if_pos (by omega), hj]
    dsimp only
    rw [hk]
    dsimp only
    rw [demuxLoop_fuel b.length (b.length + 1) b (k + 2) (by omega) (by omega)]

/-! ## Camera state controller (server.js `/api/move` handler and the
OSC receiver `message` handler)

JavaScript numbers are modelled as `NaN` plus an exact numeric value.
Only the orderings, `Math.min`/`Math.max`, NaN propagation and NaN
comparison semantics matter to the clamp claims, and those are exact
here; the value of a sum never matters, only that a sum of two non-NaN
numbers is some non-NaN number. -/

/-- A JavaScript number: `NaN`, or a (finite) numeric value.  `typeof`
is `'number'` for both — the handler's `typeof body.zoom === 'number'`
guard does not filter NaN out. -/
inductive JNum where
  | nan
  | num (q : ℚ)
deriving DecidableEq, Repr

/-- JS `+`: NaN propagates through addition. -/
def jadd : JNum → JNum → JNum
  | .nan, _ => .nan
  | _, .nan => .nan
  | .num a, .num b => .num (a + b)

/-- JS `<`: any comparison against NaN is false. -/
def jltB : JNum → JNum → Bool
  | .nan, _ => false
  | _, .nan => false
  | .num a, .num b => decide (a < b)

/-- `Math.min`: returns NaN if either argument is NaN. -/
def jmin : JNum → JNum → JNum
  | .nan, _ => .nan
  | _, .nan => .nan
  | .num a, .num b => .num (min a b)

/-- `Math.max`: returns NaN if either argument is NaN. -/
def jmax : JNum → JNum → JNum
  | .nan, _ => .nan
  | _, .nan => .nan
  | .num a, .num b => .num (max a b)

/-- The server-side authoritative state object (server.js lines 62–70). -/
structure CameraState where
  x : JNum
  y : JNum
  z : JNum
  pitch : JNum
  yaw : JNum
  roll : JNum
  zoom : JNum
deriving DecidableEq, Repr

/-- Initial state: `{x:0, y:1.6, z:0, pitch:0, yaw:0, roll:0, zoom:45}`. -/
def initCamera : CameraState :=
  ⟨.num 0, .num (8 / 5), .num 0, .num 0, .num 0, .num 0, .num 45⟩

/-- A parsed `/api/move` JSON body: the `absolute` flag, the absolute
fields and the delta fields, each present or absent. -/
structure MoveBody where
  absolute : Bool
  x : Option JNum
  y : Option JNum
  z : Option JNum
  pitch : Option JNum
  yaw : Option JNum
  roll : Option JNum
  zoom : Option JNum
  dx : Option JNum
  dy : Option JNum
  dz : Option JNum
  dpitch : Option JNum
  dyaw : Option JNum
  droll : Option JNum
  dzoom : Option JNum
deriving DecidableEq, Repr

/-- `Math.max(20, Math.min(150, v))` — the clamp used by the absolute
branch of `/api/move` (line 416) and by the OSC zoom handler (line 167). -/
def clampZoomMaxMin (v : JNum) : JNum := jmax (.num 20) (jmin (.num 150) v)

/-- The trailing `if (state.zoom < 20) ... if (state.zoom > 150) ...`
normalisation of the `/api/move` handler (lines 428–429). -/
def postClampZoom (z : JNum) : JNum :=
  let z1 := if jltB z (.num 20) then JNum.num 20 else z
  if jltB (.num 150) z1 then JNum.num 150 else z1

/-- The `/api/move` handler body (server.js lines 403–443): absolute
fields overwrite (zoom through `Math.max`/`Math.min`), delta fields add,
then the zoom is normalised by the two `if`s. -/
def applyMove (s : CameraState) (b : MoveBody) : CameraState :=
  let s1 : CameraState :=
    if b.absolute then
      { x := match b.x with | some v => v | none => s.x
        y := match b.y with | some v => v | none => s.y
        z := match b.z with | some v => v | none => s.z
        pitch := match b.pitch with | some v => v | none => s.pitch
        yaw := match b.yaw with | some v => v | none => s.yaw
        roll := match b.roll with | some v => v | none => s.roll
        zoom := match b.zoom with
          | some v => clampZoomMaxMin v
          | none => s.zoom }
    else
      { x := match b.dx with | some d => jadd s.x d | none => s.x
        y := match b.dy with | some d => jadd s.y d | none => s.y
        z := match b.dz with | some d => jadd s.z d | none => s.z
        pitch := match b.dpitch with | some d => jadd s.pitch d | none => s.pitch
        yaw := match b.dyaw with | some d => jadd s.yaw d | none => s.yaw
        roll := match b.droll with | some d => jadd s.roll d | none => s.roll
        zoom := match b.dzoom with | some d => jadd s.zoom d | none => s.zoom }
  { s1 with zoom := postClampZoom s1.zoom }

/-- One camera-state mutation: an authenticated `/api/move` request, an
inbound `/usercamera/Zoom` OSC float (`readFloatBE` of four
attacker-chosen bytes — the pattern `0x7FC00000` reads as NaN), or an
inbound `/usercamera/Pose` OSC message (six floats). -/
inductive Mutation where
  | move (b : MoveBody)
  | oscZoom (v : JNum)
  | oscPose (x y z pitch yaw roll : JNum)
deriving DecidableEq, Repr

/-- Apply one mutation as the corresponding handler does
(`/api/move`: lines 403–443; OSC receiver: lines 155–169). -/
def applyMutation (s : CameraState) : Mutation → CameraState
  | .move b => applyMove s b
  | .oscZoom v => { s with zoom := clampZoomMaxMin v }
  | .oscPose x y z pitch yaw roll =>
    { s with x := x, y := y, z := z, pitch := pitch, yaw := yaw, roll := roll }

def applyMutations (s : CameraState) : List Mutation → CameraState
  | [] => s
  | m :: ms => applyMutations (applyMutation s m) ms

/-- The zoom scalar sits inside the closed range `[20, 150]` (NaN does
not). -/
def zoomInRangeB : JNum → Bool
  | .nan => false
  | .num q => decide (20 ≤ q) && decide (q ≤ 150)

/-- The zoom-affecting fields of a mutation carry no NaN.  JSON bodies
always satisfy this (`JSON.parse` cannot produce NaN); an inbound OSC
float need not. -/
def mutZoomNanFree : Mutation → Prop
  | .move b => !(b.zoom = some .nan) ∧ !(b.dzoom = some .nan)
  | .oscZoom v => !(v = .nan)
  | .oscPose _ _ _ _ _ _ => True

instance (m : Mutation) : Decidable (mutZoomNanFree m) := by
  unfold mutZoomNanFree
  cases m <;> infer_instance

theorem postClampZoom_num (r : ℚ) :
    zoomInRangeB (postClampZoom (.num r)) = true := by
  unfold postClampZoom
  dsimp only
  split_ifs with h1 h2 h2 <;>
    · simp only [jltB, zoomInRangeB, Bool.and_eq_true, decide_eq_true_eq,
        not_lt] at *
      constructor <;> linarith

theorem clampZoomMaxMin_num (r : ℚ) :
    zoomInRangeB (clampZoomMaxMin (.num r)) = true := by
  unfold clampZoomMaxMin jmax jmin zoomInRangeB
  simp only [Bool.and_eq_true, decide_eq_true_eq]
  constructor
  · exact le_max_left 20 _
  · exact max_le (by norm_num) (min_le_left 150 r)

/-- One NaN-free mutation leaves the zoom inside `[20, 150]`, whatever
range-respecting value it held before. -/
theorem applyMutation_zoom_inRange (s : CameraState) (m : Mutation)
    (hs : zoomInRangeB s.zoom = true) (hm : mutZoomNanFree m) :
    zoomInRangeB (applyMutation s m).zoom = true := by
  obtain ⟨zq, hzq⟩ : ∃ q, s.zoom = .num q := by
    cases hz : s.zoom with
    | nan => rw [hz] at hs; simp [zoomInRangeB] at hs
    | num q => exact ⟨q, rfl⟩
  cases m with
  | oscPose x y z p yw r => simpa [applyMutation] using hs
  | oscZoom v =>
    cases v with
    | nan => simp [mutZoomNanFree] at hm
    | num q => simpa [applyMutation] using clampZoomMaxMin_num q
  | move b =>
    obtain ⟨hmz, hmdz⟩ := hm
    show zoomInRangeB (applyMove s b).zoom = true
    unfold applyMove
    dsimp only
    by_cases habs : b.absolute
    · rw [if_pos habs]
      cases hbz : b.zoom with
      | none => rw [hzq]; exact postClampZoom_num zq
      | some v =>
        cases v with
        | nan => rw [hbz] at hmz; simp at hmz
        | num q =>
          show zoomInRangeB (postClampZoom (clampZoomMaxMin (.num q))) = true
          have := clampZoomMaxMin_num q
          obtain ⟨cq, hcq⟩ : ∃ r, clampZoomMaxMin (.num q) = .num r := by
            cases hc : clampZoomMaxMin (.num q) with
            | nan => rw [hc] at this; simp [zoomInRangeB] at this
            | num r => exact ⟨r, rfl⟩
          rw [hcq]
          exact postClampZoom_num cq
    · rw [if_neg habs]
      cases hbdz : b.dzoom with
      | none => rw [hzq]; exact postClampZoom_num zq
      | some d =>
        cases d with
        | nan => rw [hbdz] at hmdz; simp at hmdz
        | num dq =>
          rw [hzq]
          show zoomInRangeB (postClampZoom (jadd (.num zq) (.num dq))) = true
          exact postClampZoom_num (zq + dq)

/-- Any NaN-free mutation sequence keeps the zoom in range from any
range-respecting start. -/
theorem applyMutations_zoom_inRange (ms : List Mutation)
    (hms : ∀ m ∈ ms, mutZoomNanFree m) (s : CameraState)
    (hs : zoomInRangeB s.zoom = true) :
    zoomInRangeB (applyMutations s ms).zoom = true := by
  induction ms generalizing s with
  | nil => exact hs
  | cons m ms ih =>
    exact ih (fun u hu => hms u (by simp [hu])) _
      (applyMutation_zoom_inRange s m hs (hms m (by simp)))

/-! ## Probe decision of `tryDirectSpoutCapture`
(spout-bridge.js lines 164–274)

The decision fires 2000 ms after launch; the no-data kill timer fires at
3000 ms, strictly after it, so only the events arriving before the
decision matter.  Each event is one listener invocation of the source. -/

/-- An event delivered to the probing backend's listeners before the
2-second decision. -/
inductive ProbeEv where
  /-- A `stdout` `data` chunk (any bytes, not necessarily a frame). -/
  | data (chunk : List Nat)
  /-- A `stderr` line matching the error patterns of line 230. -/
  | stderrErr
  /-- A `stderr` line not matching those patterns. -/
  | stderrInfo
  /-- The child-process `error` event. -/
  | procError
  /-- The child-process `exit` event with its code (`null` is `none`). -/
  | exit (code : Option Int)
deriving DecidableEq, Repr

/-- The listener-shared state of one probe: the three flags of
`tryDirectSpoutCapture` plus the demuxer state and the frame counter. -/
structure ProbeState where
  hasReceivedFrames : Bool
  errorOccurred : Bool
  alive : Bool
  buffer : List Nat
  latest : Option (List Nat)
  frameCount : Nat
deriving DecidableEq, Repr

def initProbe : ProbeState := ⟨false, false, true, [], none, 0⟩

/-- One listener invocation, exactly as the handlers update the shared
variables: `data` sets `hasReceivedFrames = true` *before* demuxing
anything (line 195); a matching `stderr` line or `error` sets
`errorOccurred`; `exit` sets `errorOccurred` for a non-zero non-null
code or when no data was ever received, and clears `captureProcess`. -/
def probeStep (st : ProbeState) : ProbeEv → ProbeState
  | .data chunk =>
    let r := demuxChunk st.buffer chunk
    { st with
        hasReceivedFrames := true
        buffer := r.2
        latest := (match r.1.getLast? with | some f => some f | none => st.latest)
        frameCount := st.frameCount + r.1.length }
  | .stderrErr => { st with errorOccurred := true }
  | .stderrInfo => st
  | .procError => { st with errorOccurred := true, alive := false }
  | .exit code =>
    { st with
        errorOccurred := st.errorOccurred
          || (match code with | some c => decide (¬c = 0) | none => false)
          || !st.hasReceivedFrames
        alive := false }

/-- The resolution at the 2-second mark (lines 255–269):
`hasReceivedFrames && !errorOccurred && captureProcess` — note it never
consults the demuxed frame count. -/
def probeDecision (evs : List ProbeEv) : Bool :=
  let st := evs.foldl probeStep initProbe
  st.hasReceivedFrames && !st.errorOccurred && st.alive

/-- Complete frames demuxed from this backend during the probe window. -/
def probeFrames (evs : List ProbeEv) : Nat :=
  (evs.foldl probeStep initProbe).frameCount

def isData : ProbeEv → Bool
  | .data _ => true
  | _ => false

def isStderrErr : ProbeEv → Bool
  | .stderrErr => true
  | _ => false

def isTerminal : ProbeEv → Bool
  | .procError => true
  | .exit _ => true
  | _ => false

theorem probeStep_data (st : ProbeState) (chunk : List Nat) :
    probeStep st (.data chunk)
      = { st with
          hasReceivedFrames := true
          buffer := (demuxChunk st.buffer chunk).2
          latest := (match (demuxChunk st.buffer chunk).1.getLast? with
            | some f => some f | none => st.latest)
          frameCount := st.frameCount + (demuxChunk st.buffer chunk).1.length } :=
  rfl

theorem probeStep_stderrErr (st : ProbeState) :
    probeStep st .stderrErr = { st with errorOccurred := true } := rfl

theorem probeStep_stderrInfo (st : ProbeState) :
    probeStep st .stderrInfo = st := rfl

theorem probeStep_procError (st : ProbeState) :
    probeStep st .procError = { st with errorOccurred := true, alive := false } :=
  rfl

theorem probeStep_exit (st : ProbeState) (code : Option Int) :
    probeStep st (.exit code)
      = { st with
          errorOccurred := st.errorOccurred
            || (match code with | some c => decide (¬c = 0) | none => false)
            || !st.hasReceivedFrames
          alive := false } := rfl

theorem probeFold_alive (evs : List ProbeEv) (st : ProbeState) :
    (evs.foldl probeStep st).alive = (st.alive && !evs.any isTerminal) := by
  induction evs generalizing st with
  | nil => simp
  | cons e evs ih =>
    rw [List.foldl_cons, ih]
    cases e <;>
      simp [probeStep_data, probeStep_stderrErr, probeStep_stderrInfo,
        probeStep_procError, probeStep_exit, isTerminal, Bool.and_assoc]

theorem probeFold_has (evs : List ProbeEv) (st : ProbeState) :
    (evs.foldl probeStep st).hasReceivedFrames
      = (st.hasReceivedFrames || evs.any isData) := by
  induction evs generalizing st with
  | nil => simp
  | cons e evs ih =>
    rw [List.foldl_cons, ih]
    cases e <;>
      simp [probeStep_data, probeStep_stderrErr, probeStep_stderrInfo,
        probeStep_procError, probeStep_exit, isData, Bool.or_assoc]

theorem probeFold_err (evs : List ProbeEv) (st : ProbeState)
    (hterm : evs.any isTerminal = false) :
    (evs.foldl probeStep st).errorOccurred
      = (st.errorOccurred || evs.any isStderrErr) := by
  induction evs generalizing st with
  | nil => simp
  | cons e evs ih =>
    rw [List.foldl_cons]
    simp only [List.any_cons, Bool.or_eq_false_iff] at hterm
    cases e with
    | data chunk =>
      rw [ih _ hterm.2]
      simp [probeStep_data, isStderrErr]
    | stderrErr =>
      rw [ih _ hterm.2]
      simp [probeStep_stderrErr, isStderrErr, Bool.or_assoc]
    | stderrInfo =>
      rw [ih _ hterm.2]
      simp [probeStep_stderrInfo, isStderrErr]
    | procError => simp [isTerminal] at hterm
    | exit code => simp [isTerminal] at hterm

/-- What the 2-second resolution actually tests: some stdout data
arrived, no error-matching stderr line, and no process death — complete
frames play no part. -/
theorem probeDecision_iff (evs : List ProbeEv) :
    probeDecision evs = true ↔
      (evs.any isData = true ∧ evs.any isStderrErr = false ∧
        evs.any isTerminal = false) := by
  unfold probeDecision
  dsimp only
  constructor
  · intro h
    simp only [Bool.and_eq_true, Bool.not_eq_true'] at h
    obtain ⟨⟨hhas, herr⟩, halive⟩ := h
    have hterm : evs.any isTerminal = false := by
      have ha := probeFold_alive evs initProbe
      rw [halive] at ha
      simpa [initProbe] using ha.symm
    refine ⟨?_, ?_, hterm⟩
    · have hh := probeFold_has evs initProbe
      rw [hhas] at hh
      simpa [initProbe] using hh.symm
    · have he := probeFold_err evs initProbe hterm
      rw [herr] at he
      simpa [initProbe] using he.symm
  · rintro ⟨hdata, herr, hterm⟩
    simp only [Bool.and_eq_true, Bool.not_eq_true']
    refine ⟨⟨?_, ?_⟩, ?_⟩
    · rw [probeFold_has]
      simp [initProbe, hdata]
    · rw [probeFold_err evs initProbe hterm]
      simp [initProbe, herr]
    · rw [probeFold_alive]
      simp [initProbe, hterm]

theorem mem_of_getLast?_eq (l : List (List Nat)) (x : List Nat)
    (h : l.getLast? = some x) : x ∈ l := by
  obtain ⟨hne, hxe⟩ :=
    List.mem_getLast?_eq_getLast (show x ∈ l.getLast? from h)
  rw [hxe]
  exact List.getLast_mem hne

/-! ## The claims -/

/-- C1 (counterexample): the claim as stated fails for the boolean type
codes.  Encoding address `/` with type list `T` and the argument list
`[true]` and decoding the bytes yields an empty argument list, not the
original one: `parseOscMessage` treats `T` in its catch-all `continue`
branch and never pushes a boolean value. -/
theorem claim_C1_counterexample :
    parseOscMessage (buildOscMessage [47] [84] [OscArg.bool true])
      = ParseOut.ok ⟨[47], [84], []⟩ ∧
    ¬parseOscMessage (buildOscMessage [47] [84] [OscArg.bool true])
      = ParseOut.ok ⟨[47], [84], [OscArg.bool true]⟩ := by
  decide

/-- C1 (amended): for every NUL-free address and well-typed `f,i,s,T,F`
argument list, decode of encode returns the address and the type list
exactly, and returns the arguments with the `T`/`F` (boolean) entries
removed — floats bit-for-bit, integers and strings exactly.  When no
boolean type codes occur the original argument list is reproduced
in full. -/
theorem claim_C1_roundtrip (addr ts : List Nat) (as : List OscArg)
    (haddr : 0 ∉ addr) (hwt : wellTypedB ts as = true) :
    parseOscMessage (buildOscMessage addr ts as)
      = ParseOut.ok ⟨addr, ts, stripBools ts as⟩ ∧
    ((∀ t ∈ ts, ¬t = 84 ∧ ¬t = 70) → stripBools ts as = as) :=
  ⟨parse_build addr ts as haddr hwt,
    fun h => stripBools_eq_self ts as hwt h⟩

/-- C1 (witness): a concrete round trip with one float, one negative
integer, one string and one boolean. -/
theorem claim_C1_witness :
    parseOscMessage (buildOscMessage [47] [102, 105, 115, 84]
        [.float 1078530011, .int (-5), .str [104, 105], .bool true])
      = ParseOut.ok ⟨[47], [102, 105, 115, 84],
          [.float 1078530011, .int (-5), .str [104, 105]]⟩ :=
  (claim_C1_roundtrip [47] [102, 105, 115, 84]
    [.float 1078530011, .int (-5), .str [104, 105], .bool true]
    (by decide) (by decide)).1

/-- C2 (code bug, evaluated): splitting the same bytes differently
changes what the demuxer emits.  One chunk holding frame 1 plus five
bytes of frame 2, followed by a chunk with the rest of frame 2, emits
only frame 1 — the post-loop `buffer.slice(startIndex)` re-slices the
already-sliced partial frame with the stale cursor and destroys frame
2's start marker — while the whole buffer fed at once emits both
frames. -/
theorem claim_C2_chunking_bug :
    (demuxFeed initDemux
        [[255, 216, 255, 217, 255, 216, 1, 2, 3], [4, 255, 217]]).2
      = [[255, 216, 255, 217]] ∧
    (demuxFeed initDemux
        [[255, 216, 255, 217, 255, 216, 1, 2, 3] ++ [4, 255, 217]]).2
      = [[255, 216, 255, 217], [255, 216, 1, 2, 3, 4, 255, 217]] ∧
    ¬([[255, 216, 255, 217]] : List (List Nat))
      = [[255, 216, 255, 217], [255, 216, 1, 2, 3, 4, 255, 217]] := by
  decide

/-- C3 (counterexample): an inbound `/usercamera/Zoom` float can be NaN
(`readFloatBE` of the bytes `7F C0 00 00`), and
`Math.max(20, Math.min(150, NaN))` is NaN, so immediately after that
mutation the zoom field is observably outside `[20, 150]`. -/
theorem claim_C3_counterexample :
    zoomInRangeB (applyMutation initCamera (.oscZoom .nan)).zoom = false :=
  rfl

/-- C3 (amended): as long as no mutation supplies NaN in a zoom field —
which `/api/move` bodies cannot, since `JSON.parse` never produces NaN,
but an inbound OSC zoom float can — the zoom lies in `[20, 150]` after
every single mutation of any sequence. -/
theorem claim_C3_clamp (ms : List Mutation)
    (hms : ∀ m ∈ ms, mutZoomNanFree m) (k : Nat) :
    zoomInRangeB (applyMutations initCamera (ms.take k)).zoom = true :=
  applyMutations_zoom_inRange (ms.take k)
    (fun m hm => hms m (List.mem_of_mem_take hm)) initCamera (by decide)

/-- C3 (witness): an overshooting absolute zoom then a huge negative
delta, both clamped. -/
theorem claim_C3_witness :
    zoomInRangeB (applyMutations initCamera
      (([Mutation.oscZoom (.num 9999),
         Mutation.move ⟨false, none, none, none, none, none, none, none,
           none, none, none, none, none, none,
           some (.num (-500))⟩] : List Mutation).take 2)).zoom = true :=
  claim_C3_clamp
    [Mutation.oscZoom (.num 9999),
     Mutation.move ⟨false, none, none, none, none, none, none, none,
       none, none, none, none, none, none, some (.num (-500))⟩]
    (by decide) 2

/-- C4 (counterexample): the datagram `/\0\0\0,bf\0` followed by the
four blob-size bytes `80 00 00 00` passes both NUL scans (address NUL
at 1, type-tag NUL at 7), yet does not decode to a message: the signed
`readInt32BE` blob size is `-2147483648`, which slips the
`offset + blobSize > buffer.length` guard, drives the offset negative,
and the next fixed-size read throws `ERR_OUT_OF_RANGE` — so the claim's
"every other datagram decodes to a message" is false. -/
theorem claim_C4_counterexample :
    parseOscMessage [47, 0, 0, 0, 44, 98, 102, 0, 128, 0, 0, 0]
        = ParseOut.thrown ∧
      findByte 0 [47, 0, 0, 0, 44, 98, 102, 0, 128, 0, 0, 0] 0 = some 1 ∧
      findByte 0 [47, 0, 0, 0, 44, 98, 102, 0, 128, 0, 0, 0]
        (roundUp4 (1 + 1)) = some 7 := by
  decide

/-- C4 (amended): `parseOscMessage` returns the `MalformedMessage`
outcome (`null`) exactly when the address block's NUL scan fails or —
when the datagram extends past the padded address block — the type-tag
block's NUL scan fails. Every other datagram either decodes to a
message or throws a `RangeError`, and the throw is reachable only
through the blob branch's signed size read: a type list without `b`
never throws, so for blob-free datagrams the original "every other
datagram decodes to a message" stands. -/
theorem claim_C4_malformed_iff :
    (∀ b : List Nat,
        parseOscMessage b = ParseOut.null ↔
          (findByte 0 b 0 = none ∨
            ∃ e, findByte 0 b 0 = some e ∧ ¬b.length ≤ roundUp4 (e + 1) ∧
              findByte 0 b (roundUp4 (e + 1)) = none)) ∧
      (∀ (ts b : List Nat) (o : Nat), 98 ∉ ts →
        ¬parseArgs ts b (o : Int) = ArgsOut.thrown) :=
  ⟨parseOscMessage_null_iff, fun ts b o h => parseArgs_no_blob_no_throw ts b o h⟩

/-- C5 (counterexample): a chunk with no start marker is *retained*,
not discarded: after feeding `[1, 2, 3]` into an empty buffer the
handler keeps all three bytes, where the claim says the whole buffer is
discarded. -/
theorem claim_C5_counterexample :
    findPair 255 216 ([] ++ [1, 2, 3]) 0 = none ∧
    demuxChunk [] [1, 2, 3] = ([], [1, 2, 3]) ∧
    ¬([1, 2, 3] : List Nat) = [] := by
  decide

/-- C5 (amended): per chunk, after appending: if no start marker is
found from the cursor the buffer is kept from the cursor onward (not
discarded); if a start marker at `j` has no end marker after it the
buffer is kept from `j` onward; if both markers are found the inclusive
range is emitted as one frame and scanning continues past it within the
same chunk (`demuxLoop` at `k + 2`), and the loop's resulting buffer is
finally sliced once more by the stale final cursor — dropped entirely
when the cursor is not below its length. -/
theorem claim_C5_chunk_behavior (buffer chunk : List Nat) :
    (findPair 255 216 (buffer ++ chunk) 0 = none →
      demuxChunk buffer chunk = ([], buffer ++ chunk)) ∧
    (∀ j, findPair 255 216 (buffer ++ chunk) 0 = some j →
      findPair 255 217 (buffer ++ chunk) (j + 2) = none →
      demuxChunk buffer chunk = ([], (buffer ++ chunk).drop j)) ∧
    (∀ j k, findPair 255 216 (buffer ++ chunk) 0 = some j →
      findPair 255 217 (buffer ++ chunk) (j + 2) = some k →
      demuxChunk buffer chunk
        = (listSlice (buffer ++ chunk) j (k + 2)
            :: (demuxLoop ((buffer ++ chunk).length + 1) (buffer ++ chunk)
              (k + 2)).1,
           if (demuxLoop ((buffer ++ chunk).length + 1) (buffer ++ chunk)
               (k + 2)).2.2
               < (demuxLoop ((buffer ++ chunk).length + 1) (buffer ++ chunk)
                 (k + 2)).2.1.length
           then (demuxLoop ((buffer ++ chunk).length + 1) (buffer ++ chunk)
               (k + 2)).2.1.drop
               (demuxLoop ((buffer ++ chunk).length + 1) (buffer ++ chunk)
                 (k + 2)).2.2
           else [])) :=
  demuxChunkB_cases (buffer ++ chunk)

/-- C6: streaming any sequence of well-formed frames of size at most
`S` one byte per `data` event never grows the accumulation buffer past
`S` bytes, at every prefix of the stream, independent of the number of
frames. -/
theorem claim_C6_memory_bound (S : Nat) (frames : List (List Nat))
    (hwf : ∀ f ∈ frames, wfFrame S f) (k : Nat) :
    ((demuxFeed initDemux
        (byteChunks ((frames.flatten).take k))).1).buffer.length ≤ S :=
  feed_frames_bound S frames hwf none k

/-- C6 (witness): three of the four bytes of a minimal frame, buffer
bounded by 4. -/
theorem claim_C6_witness :
    ((demuxFeed initDemux
        (byteChunks ((([[255, 216, 255, 217]] :
          List (List Nat)).flatten).take 3))).1).buffer.length ≤ 4 :=
  claim_C6_memory_bound 4 [[255, 216, 255, 217]] (by decide) 3

/-- C7: after any feed, a viewer tick writes nothing when no frame has
ever been demuxed, and otherwise writes exactly one multipart segment
carrying the most recently emitted frame with declared content length
equal to its byte count. -/
theorem claim_C7_viewer_tick (chunks : List (List Nat)) :
    ((demuxFeed initDemux chunks).2 = [] →
      sendFrameTick (demuxFeed initDemux chunks).1.latest = none) ∧
    (∀ f, (demuxFeed initDemux chunks).2.getLast? = some f →
      sendFrameTick (demuxFeed initDemux chunks).1.latest
        = some (f.length, f)) := by
  constructor
  · intro h
    rw [demuxFeed_latest, h]
    rfl
  · intro f hf
    rw [demuxFeed_latest, hf]
    have hlen := demuxFeed_frames_length initDemux chunks f
      (mem_of_getLast?_eq _ f hf)
    show (if 0 < f.length then some (f.length, f) else none)
      = some (f.length, f)
    rw [if_pos (by omega)]

/-- C7 (witness): feeding one complete frame, the tick emits it with
its length; feeding nothing, the tick emits nothing. -/
theorem claim_C7_witness :
    sendFrameTick (demuxFeed initDemux [[255, 216, 9, 255, 217]]).1.latest
      = some (5, [255, 216, 9, 255, 217]) :=
  (claim_C7_viewer_tick [[255, 216, 9, 255, 217]]).2
    [255, 216, 9, 255, 217] (by decide)

/-- C8 (counterexample): a probe that receives a single garbage stdout
byte and then hits its 2-second decision succeeds with zero complete
frames demuxed — `hasReceivedFrames` is set by any `data` chunk, not by
a demuxed frame. -/
theorem claim_C8_counterexample :
    probeDecision [ProbeEv.data [0]] = true ∧
    probeFrames [ProbeEv.data [0]] = 0 := by
  decide

/-- C8 (amended): the probe decision succeeds exactly when at least one
stdout `data` chunk arrived, no stderr line matched the error patterns,
and the process neither errored nor exited before the decision; the
number of complete frames demuxed is never consulted, so a backend can
be committed to Active with zero complete frames. -/
theorem claim_C8_probe_decision (evs : List ProbeEv) :
    probeDecision evs = true ↔
      (evs.any isData = true ∧ evs.any isStderrErr = false ∧
        evs.any isTerminal = false) :=
  probeDecision_iff evs

/-- C9: every encoded message decomposes into the padded address block,
the padded type-tag block and the argument bytes, and both blocks have
lengths divisible by 4. -/
theorem claim_C9_padding (address types : List Nat) (args : List OscArg) :
    buildOscMessage address types args
      = writePaddedString address ++ writePaddedString (44 :: types)
        ++ encodeArgs types args ∧
    (writePaddedString address).length % 4 = 0 ∧
    (writePaddedString (44 :: types)).length % 4 = 0 := by
  refine ⟨rfl, ?_, ?_⟩
  · have := four_dvd_writePaddedString_length address
    omega
  · have := four_dvd_writePaddedString_length (44 :: types)
    omega

/-- C10: a datagram whose NUL-terminated type-tag block begins with any
non-NUL character — comma or not — is never rejected; the first
character is unconditionally discarded and the rest becomes the type
list. -/
theorem claim_C10_tag_no_comma (addr tag : List Nat) (c : Nat)
    (haddr : 0 ∉ addr) (hc : ¬c = 0) (htag : 0 ∉ tag) :
    parseOscMessage (writePaddedString addr ++ writePaddedString (c :: tag))
      = ParseOut.ok ⟨addr, tag, []⟩ := by
  have h := parse_tag_first_char_dropped addr (c :: tag) haddr
    (by simp only [List.mem_cons, not_or]
        exact ⟨fun he => hc he.symm, htag⟩)
  simpa using h

/-- C10 (witness): type-tag block `X f` (no leading comma): decoded with
types `f`, not rejected. -/
theorem claim_C10_witness :
    parseOscMessage (writePaddedString [47, 97] ++ writePaddedString [88, 102])
      = ParseOut.ok ⟨[47, 97], [102], []⟩ :=
  claim_C10_tag_no_comma [47, 97] [102] 88 (by decide) (by decide) (by decide)

end VRC
